import Mathlib

/-!
Verification of the `texfmt` lexer (`src/lexer.rs`).

The lexer is embedded shallowly: the input string is a `List Char`, and each
nom parser `fn lex_x(input: &str) -> IResult<&str, Token<&str>>` becomes a
Lean function `List Char → Option (List Char × Token)` returning the
remaining input paired with the produced token (`none` models `Err`).
All parsers come from nom's `complete` family, so `Incomplete` never arises
and `Option` is an exact model of the result.
-/

namespace Texfmt

/-- The `Token<S>` enum from `src/lexer.rs`, with payload slices as `List Char`. -/
inductive Token where
  | Command (s : List Char)
  | Comment (s : List Char)
  | Text (s : List Char)
  | Endline
  | BDisplayMath
  | EDisplayMath
  | TDisplayMath
  | InlineMath
  | Whitespace (s : List Char)
  | Newline
  | LBrace
  | RBrace
  | LBracket
  | RBracket
deriving DecidableEq, Repr

/-- nom `character::complete::not_line_ending`: consume characters up to (not
including) the first `\n` or `\r\n`; a `\r` not followed by `\n` (also a `\r`
at end of input) is an error. Returns `(remaining, taken)`. -/
def notLineEnding : List Char → Option (List Char × List Char)
  | [] => some ([], [])
  | c :: r =>
    if c = '\n' then some (c :: r, [])
    else if c = '\r' then
      match r with
      | d :: _ => if d = '\n' then some (c :: r, []) else none
      | [] => none
    else
      match notLineEnding r with
      | some (rem, taken) => some (rem, c :: taken)
      | none => none

/-- `lex_command`: `preceded(char('\\'), alpha1)` mapped to `Token::Command`.
nom's `alpha1` accepts one or more ASCII alphabetic characters. -/
def lex_command (s : List Char) : Option (List Char × Token) :=
  match s with
  | c :: r =>
    if c = '\\' then
      if (r.takeWhile Char.isAlpha).isEmpty then none
      else some (r.dropWhile Char.isAlpha, Token.Command (r.takeWhile Char.isAlpha))
    else none
  | [] => none

/-- `lex_comment`: `preceded(char('%'), not_line_ending)` mapped to `Token::Comment`. -/
def lex_comment (s : List Char) : Option (List Char × Token) :=
  match s with
  | c :: r =>
    if c = '%' then
      match notLineEnding r with
      | some (rem, taken) => some (rem, Token.Comment taken)
      | none => none
    else none
  | [] => none

/-- `lex_endline`: `tag(r"\\")` mapped to `Token::Endline`. -/
def lex_endline (s : List Char) : Option (List Char × Token) :=
  match s with
  | c :: r =>
    if c = '\\' then
      match r with
      | d :: r2 => if d = '\\' then some (r2, Token.Endline) else none
      | [] => none
    else none
  | [] => none

/-- `lex_math`: `alt((tag(r"\["), tag(r"\]"), tag(r"$$"), tag(r"$")))` in this
order, mapped to the four math-delimiter tokens. -/
def lex_math (s : List Char) : Option (List Char × Token) :=
  match s with
  | [] => none
  | c :: r =>
    if c = '\\' then
      match r with
      | d :: r2 =>
        if d = '[' then some (r2, Token.BDisplayMath)
        else if d = ']' then some (r2, Token.EDisplayMath)
        else none
      | [] => none
    else if c = '$' then
      match r with
      | d :: r2 => if d = '$' then some (r2, Token.TDisplayMath) else some (r, Token.InlineMath)
      | [] => some (r, Token.InlineMath)
    else none

/-- nom `space1` character class: space or tab. -/
def isSpaceTab (c : Char) : Bool := c = ' ' || c = '\t'

/-- `lex_whitespace`: `space1` mapped to `Token::Whitespace`. -/
def lex_whitespace (s : List Char) : Option (List Char × Token) :=
  if (s.takeWhile isSpaceTab).isEmpty then none
  else some (s.dropWhile isSpaceTab, Token.Whitespace (s.takeWhile isSpaceTab))

/-- `lex_newline`: `line_ending` (`\n` or `\r\n`) mapped to `Token::Newline`. -/
def lex_newline (s : List Char) : Option (List Char × Token) :=
  match s with
  | c :: r =>
    if c = '\n' then some (r, Token.Newline)
    else if c = '\r' then
      match r with
      | d :: r2 => if d = '\n' then some (r2, Token.Newline) else none
      | [] => none
    else none
  | [] => none

/-- `lex_delimiter`: one of `{ } [ ]`. -/
def lex_delimiter (s : List Char) : Option (List Char × Token) :=
  match s with
  | c :: r =>
    if c = '{' then some (r, Token.LBrace)
    else if c = '}' then some (r, Token.RBrace)
    else if c = '[' then some (r, Token.LBracket)
    else if c = ']' then some (r, Token.RBracket)
    else none
  | [] => none

/-- Character class of `none_of("\\%{}$ \t\n")` in `lex_text`. -/
def isTextChar (c : Char) : Bool :=
  !(c = '\\' || c = '%' || c = '{' || c = '}' || c = '$' || c = ' ' || c = '\t' || c = '\n')

/-- Character class of `one_of("%{}$&,;! ")`: the escapable characters. -/
def isEscapable (c : Char) : Bool :=
  c = '%' || c = '{' || c = '}' || c = '$' || c = '&' || c = ',' || c = ';' || c = '!' || c = ' '

/-- The greedy run of `many0(alt((none_of("\\%{}$ \t\n"), preceded(char('\\'),
one_of("%{}$&,;! ")))))` inside `lex_text`, recognized: returns
`(remaining, consumed)`. -/
def textRun : List Char → List Char × List Char
  | [] => ([], [])
  | c :: r =>
    if isTextChar c then
      ((textRun r).1, c :: (textRun r).2)
    else if c = '\\' then
      match r with
      | d :: r2 =>
        if isEscapable d then ((textRun r2).1, c :: d :: (textRun r2).2)
        else (c :: r, [])
      | [] => (c :: r, [])
    else (c :: r, [])

/-- `lex_text`: `recognize(many1(...))` mapped to `Token::Text`; fails when the
first element of the run fails (empty consumption). -/
def lex_text (s : List Char) : Option (List Char × Token) :=
  if (textRun s).2.isEmpty then none
  else some ((textRun s).1, Token.Text (textRun s).2)

/-- nom `alt` on two branches: first success wins, second tried on error only. -/
def orElseO {α : Type} (a b : Option α) : Option α :=
  match a with
  | some x => some x
  | none => b

/-- `lex_token`: `alt` over the eight rules in the source's fixed order. -/
def lex_token (s : List Char) : Option (List Char × Token) :=
  orElseO (lex_command s) (orElseO (lex_comment s) (orElseO (lex_endline s)
    (orElseO (lex_math s) (orElseO (lex_whitespace s) (orElseO (lex_newline s)
      (orElseO (lex_delimiter s) (lex_text s)))))))

/-- Fuel-indexed driver loop of `many0(lex_token)`. -/
def lexTokensFuel : Nat → List Char → List Char × List Token
  | 0, s => (s, [])
  | n + 1, s =>
    match lex_token s with
    | some (r, t) => ((lexTokensFuel n r).1, t :: (lexTokensFuel n r).2)
    | none => (s, [])

/-- `lex_tokens`: `many0(lex_token)`.  Each successful `lex_token` consumes at
least one character (proved below), so `length + 1` fuel is always enough and
this is the exact loop of nom's `many0`. -/
def lex_tokens (s : List Char) : List Char × List Token :=
  lexTokensFuel (s.length + 1) s

/-- The payload slice of a payload-bearing token. -/
def payloadOf : Token → Option (List Char)
  | Token.Command s => some s
  | Token.Comment s => some s
  | Token.Text s => some s
  | Token.Whitespace s => some s
  | _ => none

/-- Whether a token is a `Comment`. -/
def isComment : Token → Bool
  | Token.Comment _ => true
  | _ => false

/-- The source text a token stands for: payload-bearing tokens prepend the
character their rule consumed before the payload (`\` for `Command`, `%` for
`Comment`, nothing for `Text` and `Whitespace`); payload-less tokens are their
fixed literal text; `Newline` stands for the terminator of the width selected
by `b` (`true` for `\r\n`, `false` for `\n`). -/
def renderTok : Token → Bool → List Char
  | Token.Command s, _ => '\\' :: s
  | Token.Comment s, _ => '%' :: s
  | Token.Text s, _ => s
  | Token.Whitespace s, _ => s
  | Token.Endline, _ => ['\\', '\\']
  | Token.BDisplayMath, _ => ['\\', '[']
  | Token.EDisplayMath, _ => ['\\', ']']
  | Token.TDisplayMath, _ => ['$', '$']
  | Token.InlineMath, _ => ['$']
  | Token.Newline, b => if b then ['\r', '\n'] else ['\n']
  | Token.LBrace, _ => ['{']
  | Token.RBrace, _ => ['}']
  | Token.LBracket, _ => ['[']
  | Token.RBracket, _ => [']']

/-- Concatenate the rendered text of a token list, drawing one terminator-width
choice per token from `bs` (`false` when `bs` runs out). -/
def renderAll : List Token → List Bool → List Char
  | [], _ => []
  | t :: ts, [] => renderTok t false ++ renderAll ts []
  | t :: ts, b :: bs => renderTok t b ++ renderAll ts bs

/-- Rendering exactly as the round-trip claim words it: each payload-bearing
token contributes its payload span only, each payload-less token its fixed
literal text, and `Newline` a line terminator. -/
def renderSpan : Token → List Char
  | Token.Command s => s
  | Token.Comment s => s
  | Token.Text s => s
  | Token.Whitespace s => s
  | Token.Endline => ['\\', '\\']
  | Token.BDisplayMath => ['\\', '[']
  | Token.EDisplayMath => ['\\', ']']
  | Token.TDisplayMath => ['$', '$']
  | Token.InlineMath => ['$']
  | Token.Newline => ['\n']
  | Token.LBrace => ['{']
  | Token.RBrace => ['}']
  | Token.LBracket => ['[']
  | Token.RBracket => [']']

/-- Concatenation of `renderSpan` over a token list. -/
def renderSpans : List Token → List Char
  | [] => []
  | t :: ts => renderSpan t ++ renderSpans ts

/-- After a lone backslash, a next character on which every rule fails: not a
letter (no `Command`), not a second backslash (no `Endline`), not `[` or `]`
(no math delimiter), not escapable (no `Text` escape) — or end of input. -/
def BadNext : List Char → Prop
  | [] => True
  | c :: _ => c.isAlpha = false ∧ c ≠ '\\' ∧ c ≠ '[' ∧ c ≠ ']' ∧ isEscapable c = false

/-- The scan positions the `many0(lex_token)` driver visits, as the suffixes of
the input it reaches: the start, and the remainder after each consumed token. -/
inductive Reaches : List Char → List Char → Prop where
  | refl (s : List Char) : Reaches s s
  | step {s r u : List Char} {t : Token} (h : lex_token s = some (r, t))
      (h2 : Reaches r u) : Reaches s u

/-! ## Helper lemmas -/

theorem orElseO_some {α : Type} {a b : Option α} {x : α} (h : orElseO a b = some x) :
    a = some x ∨ (a = none ∧ b = some x) := by
  cases a with
  | some y => exact Or.inl (by simpa [orElseO] using h)
  | none => exact Or.inr ⟨rfl, by simpa [orElseO] using h⟩

theorem notLineEnding_append : ∀ {s rem taken : List Char},
    notLineEnding s = some (rem, taken) → taken ++ rem = s := by
  intro s
  induction s with
  | nil => intro rem taken h; simp [notLineEnding] at h; simp [h.1, h.2]
  | cons c r ih =>
    intro rem taken h
    by_cases hn : c = '\n'
    · subst hn; simp [notLineEnding] at h; simp [← h.1, h.2]
    · by_cases hr : c = '\r'
      · subst hr
        simp only [notLineEnding] at h
        rw [if_neg (by decide), if_pos (by decide)] at h
        match r with
        | [] => simp at h
        | d :: r2 =>
          by_cases hd : d = '\n'
          · simp [hd] at h
            simp [← h.1, h.2, hd]
          · simp [hd] at h
      · simp only [notLineEnding, hn, hr, if_false] at h
        match h2 : notLineEnding r with
        | none => rw [h2] at h; simp at h
        | some (rem2, taken2) =>
          rw [h2] at h
          simp at h
          rw [← h.1, ← h.2]
          simp [ih h2]

theorem textRun_append : ∀ s : List Char, (textRun s).2 ++ (textRun s).1 = s := by
  intro s
  induction s using textRun.induct <;> rw [textRun.eq_def] <;> simp_all

theorem lex_command_chars {s r : List Char} {t : Token}
    (h : lex_command s = some (r, t)) :
    ∃ name, t = Token.Command name ∧ name ≠ [] ∧ s = '\\' :: (name ++ r) := by
  match s with
  | [] => simp [lex_command] at h
  | c :: rest =>
    by_cases hc : c = '\\'
    · subst hc
      by_cases he : (rest.takeWhile Char.isAlpha).isEmpty = true
      · simp [lex_command, he] at h
      · simp [lex_command, he] at h
        refine ⟨rest.takeWhile Char.isAlpha, h.2.symm, by simpa using he, ?_⟩
        rw [← h.1, List.takeWhile_append_dropWhile]
    · simp [lex_command, hc] at h

theorem lex_comment_chars {s r : List Char} {t : Token}
    (h : lex_comment s = some (r, t)) :
    ∃ taken, t = Token.Comment taken ∧ s = '%' :: (taken ++ r) := by
  match s with
  | [] => simp [lex_comment] at h
  | c :: rest =>
    by_cases hc : c = '%'
    · subst hc
      simp only [lex_comment, if_pos rfl] at h
      match h2 : notLineEnding rest with
      | none => rw [h2] at h; simp at h
      | some (rem, taken) =>
        rw [h2] at h
        simp at h
        exact ⟨taken, h.2.symm, by rw [← h.1, notLineEnding_append h2]⟩
    · simp [lex_comment, hc] at h

theorem lex_endline_chars {s r : List Char} {t : Token}
    (h : lex_endline s = some (r, t)) :
    t = Token.Endline ∧ s = '\\' :: '\\' :: r := by
  match s with
  | [] => simp [lex_endline] at h
  | c :: rest =>
    by_cases hc : c = '\\'
    · subst hc
      simp only [lex_endline, if_pos rfl] at h
      match rest with
      | [] => simp at h
      | d :: r2 =>
        by_cases hd : d = '\\'
        · subst hd; simp at h; simp [h.1, h.2.symm]
        · simp [hd] at h
    · simp [lex_endline, hc] at h

theorem lex_math_chars {s r : List Char} {t : Token}
    (h : lex_math s = some (r, t)) :
    (t = Token.BDisplayMath ∧ s = '\\' :: '[' :: r) ∨
    (t = Token.EDisplayMath ∧ s = '\\' :: ']' :: r) ∨
    (t = Token.TDisplayMath ∧ s = '$' :: '$' :: r) ∨
    (t = Token.InlineMath ∧ s = '$' :: r) := by
  match s with
  | [] => simp [lex_math] at h
  | c :: rest =>
    by_cases hc : c = '\\'
    · subst hc
      simp only [lex_math, if_pos rfl] at h
      match rest with
      | [] => simp at h
      | d :: r2 =>
        by_cases hd : d = '[' <;> by_cases hd2 : d = ']'
        · rw [hd] at hd2; simp at hd2
        · subst hd; simp at h; exact Or.inl ⟨h.2.symm, by rw [h.1]⟩
        · subst hd2; simp [hd] at h
          exact Or.inr (Or.inl ⟨h.2.symm, by rw [h.1]⟩)
        · simp [hd, hd2] at h
    · by_cases hc2 : c = '$'
      · subst hc2
        simp only [lex_math, if_neg (show ('$' : Char) = '\\' -> False by decide), if_pos rfl] at h
        match rest with
        | [] =>
          simp at h
          exact Or.inr (Or.inr (Or.inr ⟨h.2.symm, by rw [h.1]⟩))
        | d :: r2 =>
          by_cases hd : d = '$'
          · subst hd; simp at h
            exact Or.inr (Or.inr (Or.inl ⟨h.2.symm, by rw [h.1]⟩))
          · simp [hd] at h
            exact Or.inr (Or.inr (Or.inr ⟨h.2.symm, by rw [h.1]⟩))
      · simp [lex_math, hc, hc2] at h

theorem lex_whitespace_chars {s r : List Char} {t : Token}
    (h : lex_whitespace s = some (r, t)) :
    ∃ ws, t = Token.Whitespace ws ∧ ws ≠ [] ∧ s = ws ++ r := by
  by_cases he : (s.takeWhile isSpaceTab).isEmpty = true
  · simp [lex_whitespace, he] at h
  · simp [lex_whitespace, he] at h
    refine ⟨s.takeWhile isSpaceTab, h.2.symm, by simpa using he, ?_⟩
    rw [← h.1, List.takeWhile_append_dropWhile]

theorem lex_newline_chars {s r : List Char} {t : Token}
    (h : lex_newline s = some (r, t)) :
    t = Token.Newline ∧ (s = '\n' :: r ∨ s = '\r' :: '\n' :: r) := by
  match s with
  | [] => simp [lex_newline] at h
  | c :: rest =>
    by_cases hn : c = '\n'
    · subst hn; simp [lex_newline] at h
      exact ⟨h.2.symm, Or.inl (by rw [h.1])⟩
    · by_cases hr : c = '\r'
      · subst hr
        simp only [lex_newline, if_neg (show ('\r' : Char) = '\n' -> False by decide), if_pos rfl] at h
        match rest with
        | [] => simp at h
        | d :: r2 =>
          by_cases hd : d = '\n'
          · subst hd; simp at h
            exact ⟨h.2.symm, Or.inr (by rw [h.1])⟩
          · simp [hd] at h
      · simp [lex_newline, hn, hr] at h

theorem lex_delimiter_chars {s r : List Char} {t : Token}
    (h : lex_delimiter s = some (r, t)) :
    (t = Token.LBrace ∧ s = '{' :: r) ∨ (t = Token.RBrace ∧ s = '}' :: r) ∨
    (t = Token.LBracket ∧ s = '[' :: r) ∨ (t = Token.RBracket ∧ s = ']' :: r) := by
  match s with
  | [] => simp [lex_delimiter] at h
  | c :: rest =>
    by_cases h1 : c = '{'
    · subst h1; simp [lex_delimiter] at h
      exact Or.inl ⟨h.2.symm, by rw [h.1]⟩
    · by_cases h2 : c = '}'
      · subst h2; simp [lex_delimiter] at h
        exact Or.inr (Or.inl ⟨h.2.symm, by rw [h.1]⟩)
      · by_cases h3 : c = '['
        · subst h3; simp [lex_delimiter, h2] at h
          exact Or.inr (Or.inr (Or.inl ⟨h.2.symm, by rw [h.1]⟩))
        · by_cases h4 : c = ']'
          · subst h4; simp [lex_delimiter, h2, h3] at h
            exact Or.inr (Or.inr (Or.inr ⟨h.2.symm, by rw [h.1]⟩))
          · simp [lex_delimiter, h1, h2, h3, h4] at h

theorem lex_text_chars {s r : List Char} {t : Token}
    (h : lex_text s = some (r, t)) :
    ∃ cs, t = Token.Text cs ∧ cs ≠ [] ∧ s = cs ++ r := by
  by_cases he : (textRun s).2.isEmpty = true
  · simp [lex_text, he] at h
  · simp [lex_text, he] at h
    refine ⟨(textRun s).2, h.2.symm, by simpa using he, ?_⟩
    rw [← h.1, textRun_append]

theorem lex_token_cases {s r : List Char} {t : Token} (h : lex_token s = some (r, t)) :
    lex_command s = some (r, t) ∨ lex_comment s = some (r, t) ∨ lex_endline s = some (r, t) ∨
    lex_math s = some (r, t) ∨ lex_whitespace s = some (r, t) ∨ lex_newline s = some (r, t) ∨
    lex_delimiter s = some (r, t) ∨ lex_text s = some (r, t) := by
  rw [lex_token] at h
  rcases orElseO_some h with h | ⟨_, h⟩
  · exact Or.inl h
  rcases orElseO_some h with h | ⟨_, h⟩
  · exact Or.inr (Or.inl h)
  rcases orElseO_some h with h | ⟨_, h⟩
  · exact Or.inr (Or.inr (Or.inl h))
  rcases orElseO_some h with h | ⟨_, h⟩
  · exact Or.inr (Or.inr (Or.inr (Or.inl h)))
  rcases orElseO_some h with h | ⟨_, h⟩
  · exact Or.inr (Or.inr (Or.inr (Or.inr (Or.inl h))))
  rcases orElseO_some h with h | ⟨_, h⟩
  · exact Or.inr (Or.inr (Or.inr (Or.inr (Or.inr (Or.inl h)))))
  rcases orElseO_some h with h | ⟨_, h⟩
  · exact Or.inr (Or.inr (Or.inr (Or.inr (Or.inr (Or.inr (Or.inl h))))))
  · exact Or.inr (Or.inr (Or.inr (Or.inr (Or.inr (Or.inr (Or.inr h))))))

theorem lex_token_render {s r : List Char} {t : Token} (h : lex_token s = some (r, t)) :
    ∃ b, renderTok t b ≠ [] ∧ renderTok t b ++ r = s := by
  rcases lex_token_cases h with h | h | h | h | h | h | h | h
  · obtain ⟨name, ht, hne, hs⟩ := lex_command_chars h
    exact ⟨false, by simp [renderTok, ht], by simp [renderTok, ht, hs]⟩
  · obtain ⟨taken, ht, hs⟩ := lex_comment_chars h
    exact ⟨false, by simp [renderTok, ht], by simp [renderTok, ht, hs]⟩
  · obtain ⟨ht, hs⟩ := lex_endline_chars h
    exact ⟨false, by simp [renderTok, ht], by simp [renderTok, ht, hs]⟩
  · rcases lex_math_chars h with ⟨ht, hs⟩ | ⟨ht, hs⟩ | ⟨ht, hs⟩ | ⟨ht, hs⟩ <;>
      exact ⟨false, by simp [renderTok, ht], by simp [renderTok, ht, hs]⟩
  · obtain ⟨ws, ht, hne, hs⟩ := lex_whitespace_chars h
    exact ⟨false, by simp [renderTok, ht, hne], by simp [renderTok, ht, hs]⟩
  · obtain ⟨ht, hs | hs⟩ := lex_newline_chars h
    · exact ⟨false, by simp [renderTok, ht], by simp [renderTok, ht, hs]⟩
    · exact ⟨true, by simp [renderTok, ht], by simp [renderTok, ht, hs]⟩
  · rcases lex_delimiter_chars h with ⟨ht, hs⟩ | ⟨ht, hs⟩ | ⟨ht, hs⟩ | ⟨ht, hs⟩ <;>
      exact ⟨false, by simp [renderTok, ht], by simp [renderTok, ht, hs]⟩
  · obtain ⟨cs, ht, hne, hs⟩ := lex_text_chars h
    exact ⟨false, by simp [renderTok, ht, hne], by simp [renderTok, ht, hs]⟩

theorem lex_token_length {s r : List Char} {t : Token} (h : lex_token s = some (r, t)) :
    r.length < s.length := by
  obtain ⟨b, hne, hs⟩ := lex_token_render h
  have h1 : s.length = (renderTok t b).length + r.length := by
    rw [← hs, List.length_append]
  have h2 : 0 < (renderTok t b).length := List.length_pos.mpr hne
  omega

theorem lexTokensFuel_congr : ∀ (n m : Nat) (s : List Char), s.length < n → s.length < m →
    lexTokensFuel n s = lexTokensFuel m s := by
  intro n
  induction n with
  | zero => intro m s hn; omega
  | succ n ih =>
    intro m s hn hm
    cases m with
    | zero => omega
    | succ m =>
      simp only [lexTokensFuel]
      cases h : lex_token s with
      | none => rfl
      | some v =>
        obtain ⟨r, t⟩ := v
        have hlt := lex_token_length h
        show ((lexTokensFuel n r).1, t :: (lexTokensFuel n r).2) =
          ((lexTokensFuel m r).1, t :: (lexTokensFuel m r).2)
        rw [ih m r (by omega) (by omega)]

theorem lex_tokens_some {s r : List Char} {t : Token} (h : lex_token s = some (r, t)) :
    lex_tokens s = ((lex_tokens r).1, t :: (lex_tokens r).2) := by
  have hlt := lex_token_length h
  have key : lexTokensFuel (s.length + 1) s =
      ((lexTokensFuel s.length r).1, t :: (lexTokensFuel s.length r).2) := by
    simp only [lexTokensFuel, h]
  have key2 : lexTokensFuel s.length r = lexTokensFuel (r.length + 1) r :=
    lexTokensFuel_congr s.length (r.length + 1) r (by omega) (by omega)
  show lexTokensFuel (s.length + 1) s =
    ((lexTokensFuel (r.length + 1) r).1, t :: (lexTokensFuel (r.length + 1) r).2)
  rw [key, key2]

theorem lex_tokens_none {s : List Char} (h : lex_token s = none) :
    lex_tokens s = (s, []) := by
  unfold lex_tokens
  simp only [lexTokensFuel, h]

theorem fuelRender : ∀ (n : Nat) (s rest : List Char) (toks : List Token),
    s.length < n → lexTokensFuel n s = (rest, toks) →
    ∃ bs, renderAll toks bs ++ rest = s := by
  intro n
  induction n with
  | zero => intro s rest toks hn; omega
  | succ n ih =>
    intro s rest toks hn hres
    cases h : lex_token s with
    | none =>
      simp only [lexTokensFuel, h] at hres
      cases hres
      exact ⟨[], by simp [renderAll]⟩
    | some v =>
      obtain ⟨r, t⟩ := v
      simp only [lexTokensFuel, h] at hres
      cases hres
      have hlt := lex_token_length h
      obtain ⟨bs, hbs⟩ := ih r (lexTokensFuel n r).1 (lexTokensFuel n r).2 (by omega) rfl
      obtain ⟨b, hbne, hb⟩ := lex_token_render h
      refine ⟨b :: bs, ?_⟩
      show (renderTok t b ++ renderAll (lexTokensFuel n r).2 bs) ++ (lexTokensFuel n r).1 = s
      rw [List.append_assoc, hbs, hb]

theorem fuelCount : ∀ (n : Nat) (s : List Char), s.length < n →
    (lexTokensFuel n s).2.length ≤ s.length := by
  intro n
  induction n with
  | zero => intro s hn; omega
  | succ n ih =>
    intro s hn
    cases h : lex_token s with
    | none => simp [lexTokensFuel, h]
    | some v =>
      obtain ⟨r, t⟩ := v
      have hlt := lex_token_length h
      have hr := ih r (by omega)
      simp only [lexTokensFuel, h, List.length_cons]
      omega

theorem fuelNone : ∀ (n : Nat) (s : List Char), s.length < n →
    (lexTokensFuel n s).1 = [] ∨ lex_token (lexTokensFuel n s).1 = none := by
  intro n
  induction n with
  | zero => intro s hn; omega
  | succ n ih =>
    intro s hn
    cases h : lex_token s with
    | none =>
      have heq : lexTokensFuel (n + 1) s = (s, []) := by simp only [lexTokensFuel, h]
      rw [heq]
      exact Or.inr h
    | some v =>
      obtain ⟨r, t⟩ := v
      have hlt := lex_token_length h
      have heq : lexTokensFuel (n + 1) s =
          ((lexTokensFuel n r).1, t :: (lexTokensFuel n r).2) := by
        simp only [lexTokensFuel, h]
      rw [heq]
      exact ih r (by omega)

theorem lex_token_payload {s r p : List Char} {t : Token} (h : lex_token s = some (r, t))
    (hp : payloadOf t = some p) :
    (∃ u, s = u ++ p ++ r) ∧ (isComment t = false → p ≠ []) := by
  rcases lex_token_cases h with h | h | h | h | h | h | h | h
  · obtain ⟨name, ht, hne, hs⟩ := lex_command_chars h
    subst ht
    simp only [payloadOf, Option.some.injEq] at hp
    subst hp
    exact ⟨⟨['\\'], by simpa using hs⟩, fun _ => hne⟩
  · obtain ⟨taken, ht, hs⟩ := lex_comment_chars h
    subst ht
    simp only [payloadOf, Option.some.injEq] at hp
    subst hp
    exact ⟨⟨['%'], by simpa using hs⟩, by simp [isComment]⟩
  · obtain ⟨ht, hs⟩ := lex_endline_chars h
    subst ht; simp [payloadOf] at hp
  · rcases lex_math_chars h with ⟨ht, hs⟩ | ⟨ht, hs⟩ | ⟨ht, hs⟩ | ⟨ht, hs⟩ <;>
      subst ht <;> simp [payloadOf] at hp
  · obtain ⟨ws, ht, hne, hs⟩ := lex_whitespace_chars h
    subst ht
    simp only [payloadOf, Option.some.injEq] at hp
    subst hp
    exact ⟨⟨[], by simpa using hs⟩, fun _ => hne⟩
  · obtain ⟨ht, _⟩ := lex_newline_chars h
    subst ht; simp [payloadOf] at hp
  · rcases lex_delimiter_chars h with ⟨ht, hs⟩ | ⟨ht, hs⟩ | ⟨ht, hs⟩ | ⟨ht, hs⟩ <;>
      subst ht <;> simp [payloadOf] at hp
  · obtain ⟨cs, ht, hne, hs⟩ := lex_text_chars h
    subst ht
    simp only [payloadOf, Option.some.injEq] at hp
    subst hp
    exact ⟨⟨[], by simpa using hs⟩, fun _ => hne⟩

theorem fuelPayload : ∀ (n : Nat) (s rest : List Char) (toks : List Token),
    s.length < n → lexTokensFuel n s = (rest, toks) →
    ∀ t ∈ toks, ∀ p, payloadOf t = some p →
      (∃ u v, s = u ++ p ++ v) ∧ (isComment t = false → p ≠ []) := by
  intro n
  induction n with
  | zero => intro s rest toks hn; omega
  | succ n ih =>
    intro s rest toks hn hres
    cases h : lex_token s with
    | none =>
      simp only [lexTokensFuel, h] at hres
      cases hres
      intro t ht
      simp at ht
    | some v =>
      obtain ⟨r, t0⟩ := v
      simp only [lexTokensFuel, h] at hres
      cases hres
      have hlt := lex_token_length h
      intro t ht p hp
      rcases List.mem_cons.mp ht with ht0 | hmem
      · subst ht0
        obtain ⟨⟨u, hu⟩, hne⟩ := lex_token_payload h hp
        exact ⟨⟨u, r, hu⟩, hne⟩
      · obtain ⟨⟨u, v, huv⟩, hne⟩ :=
          ih r (lexTokensFuel n r).1 (lexTokensFuel n r).2 (by omega) rfl t hmem p hp
        obtain ⟨b, hbne, hb⟩ := lex_token_render h
        refine ⟨⟨renderTok t0 b ++ u, v, ?_⟩, hne⟩
        rw [← hb, huv]
        simp [List.append_assoc]

theorem reaches_remainder {input u : List Char} (h : Reaches input u) :
    lex_token u = none → (lex_tokens input).1 = u := by
  induction h with
  | refl s => intro hu; rw [lex_tokens_none hu]
  | step h1 h2 ih => intro hu; rw [lex_tokens_some h1]; exact ih hu

theorem lex_token_bad {rest : List Char} (hb : BadNext rest) :
    lex_token ('\\' :: rest) = none := by
  cases rest with
  | nil => decide
  | cons c r2 =>
    obtain ⟨ha, hbs, hlb, hrb, he⟩ := hb
    have htr : textRun ('\\' :: c :: r2) = ('\\' :: c :: r2, []) := by
      rw [textRun.eq_def]
      simp [isTextChar, he, hbs]
    simp [lex_token, orElseO, lex_command, lex_comment, lex_endline, lex_math,
      lex_whitespace, lex_newline, lex_delimiter, lex_text, htr,
      List.takeWhile_cons, ha, hbs, hlb, hrb, isSpaceTab]

/-! ## Sanity checks mirroring the unit tests in `src/lexer.rs` -/

theorem sanity_command :
    lex_command ("\\cmd{arg}".toList) = some ("{arg}".toList, Token.Command "cmd".toList) := by
  decide

theorem sanity_command_rejects_endline : lex_command ("\\\\cmd".toList) = none := by decide

theorem sanity_math :
    lex_math ("$$1+2$$".toList) = some ("1+2$$".toList, Token.TDisplayMath) := by decide

theorem sanity_comment :
    lex_comment ("% hello world\n".toList) =
      some ("\n".toList, Token.Comment " hello world".toList) := by decide

theorem sanity_text :
    lex_text ("(\\,\\&\\;)\\[".toList) =
      some ("\\[".toList, Token.Text "(\\,\\&\\;)".toList) := by decide

theorem sanity_tokens :
    lex_tokens ("\\cmd{arg}".toList) =
      ([], [Token.Command "cmd".toList, Token.LBrace, Token.Text "arg".toList,
        Token.RBrace]) := by decide

/-! ## Claims -/

/-- Claim C1, as the spec words it, is false: for the fully consumed input `\a`,
concatenating the tokens' payload spans (with fixed literal text for
payload-less tokens) yields `a`, not `\a` — `Command`'s payload span excludes
the leading backslash. -/
theorem c1_spanConcat_cex :
    lex_tokens ['\\', 'a'] = ([], [Token.Command ['a']]) ∧
    renderSpans [Token.Command ['a']] ≠ ['\\', 'a'] := by decide

/-- Claim C1 (amended): concatenating each token's full source text — `\` plus the
payload for `Command`, `%` plus the payload for `Comment`, the payload itself
for `Text` and `Whitespace`, the fixed literal for the payload-less tokens, and
the line terminator of the consumed width for `Newline` (some choice `bs` of
widths exists) — followed by the remainder, reproduces the input byte-for-byte;
with an empty remainder it reproduces the whole input. -/
theorem c1_roundTrip (s rest : List Char) (toks : List Token)
    (h : lex_tokens s = (rest, toks)) : ∃ bs, renderAll toks bs ++ rest = s :=
  fuelRender (s.length + 1) s rest toks (by omega) h

/-- Claim C1 witness: the round trip at the concrete input `\r\n`. -/
theorem c1_roundTrip_witness :
    ∃ bs, renderAll [Token.Newline] bs ++ [] = ['\r', '\n'] :=
  c1_roundTrip ['\r', '\n'] [] [Token.Newline] (by decide)

/-- Claim C2, as stated, is false: on the input `\\cmd` (two backslashes then
`cmd`), `lex_tokens` produces `[Endline, Text "cmd"]`, not
`[Endline, Command "cmd"]` — after `Endline` consumes both backslashes the
remaining bare letters are consumed by the `Text` rule. -/
theorem c2_endlineCommand_cex :
    lex_tokens ['\\', '\\', 'c', 'm', 'd'] =
      ([], [Token.Endline, Token.Text ['c', 'm', 'd']]) ∧
    ([Token.Endline, Token.Text ['c', 'm', 'd']] : List Token) ≠
      [Token.Endline, Token.Command ['c', 'm', 'd']] := by decide

/-- Claim C2 (amended): on the input `\\cmd` the tokenizer consumes the whole input
and produces exactly `[Endline, Text "cmd"]`. -/
theorem c2_endlineText :
    lex_tokens ['\\', '\\', 'c', 'm', 'd'] =
      ([], [Token.Endline, Token.Text ['c', 'm', 'd']]) := by decide

/-- Claim C3, as stated, is false: payloads are not always non-empty — on the input
`%` the tokenizer produces a `Comment` token whose payload is empty. -/
theorem c3_nonEmpty_cex :
    ¬ (∀ (s rest : List Char) (toks : List Token) (t : Token) (p : List Char),
        lex_tokens s = (rest, toks) → t ∈ toks → payloadOf t = some p → p ≠ []) := by
  intro hclaim
  exact hclaim ['%'] [] [Token.Comment []] (Token.Comment []) [] (by decide)
    (by simp) rfl rfl

/-- Claim C3 (amended): every payload carried by a produced token is a contiguous
sub-range of the original input, and it is non-empty for every payload-bearing
token except `Comment`, whose payload may be empty. -/
theorem c3_payload (s rest : List Char) (toks : List Token) (t : Token)
    (p : List Char) (h : lex_tokens s = (rest, toks)) (ht : t ∈ toks)
    (hp : payloadOf t = some p) :
    (∃ u v, s = u ++ p ++ v) ∧ (isComment t = false → p ≠ []) :=
  fuelPayload (s.length + 1) s rest toks (by omega) h t ht p hp

/-- Claim C3 witness: the payload invariant at the concrete input `a`. -/
theorem c3_payload_witness :
    (∃ u v, (['a'] : List Char) = u ++ ['a'] ++ v) ∧
    (isComment (Token.Text ['a']) = false → (['a'] : List Char) ≠ []) :=
  c3_payload ['a'] [] [Token.Text ['a']] (Token.Text ['a']) ['a'] (by decide)
    (by simp) rfl

/-- Claim C4, as stated, is false: on the fully consumed input `a\r\n` the `\r\n`
terminator is split — the `\r` is absorbed into the `Text` payload (the Text
rule's character class excludes `\n` but not `\r`) and only the `\n` becomes
the `Newline` token. -/
theorem c4_split_cex :
    lex_tokens ['a', '\r', '\n'] = ([], [Token.Text ['a', '\r'], Token.Newline]) ∧
    payloadOf (Token.Text ['a', '\r']) = some ['a', '\r'] ∧
    '\r' ∈ ['a', '\r'] := by decide

/-- Claim C4 (amended): a line terminator — `\n` or `\r\n` — standing at a position
where the driver starts a token is consumed as exactly one `Newline` token
covering the whole terminator; a `\r\n` can nevertheless be split when its
`\r` is reached inside a `Text` run. -/
theorem c4_newlineToken (r : List Char) :
    lex_token ('\n' :: r) = some (r, Token.Newline) ∧
    lex_token ('\r' :: '\n' :: r) = some (r, Token.Newline) :=
  ⟨rfl, rfl⟩

/-- Claim C5: `lex_tokens` is total (a Lean function, never an error); the remainder
it returns is a suffix of the input, no rule matches at its start unless it is
empty, and by construction it is empty exactly when the input was fully
tokenized. -/
theorem c5_remainder (s : List Char) :
    (∃ u, s = u ++ (lex_tokens s).1) ∧
    ((lex_tokens s).1 = [] ∨ lex_token (lex_tokens s).1 = none) := by
  constructor
  · obtain ⟨bs, hbs⟩ :=
      fuelRender (s.length + 1) s (lex_tokens s).1 (lex_tokens s).2 (by omega) rfl
    exact ⟨renderAll (lex_tokens s).2 bs, hbs.symm⟩
  · exact fuelNone (s.length + 1) s (by omega)

/-- Claim C6: `$$1+2$$` tokenizes to `[TDisplayMath, Text "1+2", TDisplayMath]` with
empty remainder; the `$$` pairs are never split into two `InlineMath`. -/
theorem c6_displayMath :
    lex_tokens ['$', '$', '1', '+', '2', '$', '$'] =
      ([], [Token.TDisplayMath, Token.Text ['1', '+', '2'], Token.TDisplayMath]) := by
  decide

/-- Claim C7: `(\,\&\;)\[` tokenizes to `[Text "(\,\&\;)", BDisplayMath]` with
empty remainder: escaped punctuation stays verbatim inside the `Text` payload
and the unescaped `\[` becomes a separate delimiter token. -/
theorem c7_escapedText :
    lex_tokens ['(', '\\', ',', '\\', '&', '\\', ';', ')', '\\', '['] =
      ([], [Token.Text ['(', '\\', ',', '\\', '&', '\\', ';', ')'],
        Token.BDisplayMath]) := by decide

/-- Claim C8: at any driver-reached position holding a lone backslash that is at end
of input or followed by a character that is not a letter, not a backslash, not
`[` or `]`, and not escapable, the driver stops: `lex_tokens` returns exactly
that suffix as its (non-empty) remainder — the backslash is never dropped. -/
theorem c8_loneBackslash (input rest : List Char)
    (hr : Reaches input ('\\' :: rest)) (hb : BadNext rest) :
    (lex_tokens input).1 = '\\' :: rest ∧ ('\\' :: rest : List Char) ≠ [] :=
  ⟨reaches_remainder hr (lex_token_bad hb), by simp⟩

/-- Claim C8 witness: on the input `a\` the driver reaches the final lone backslash
and stops there. -/
theorem c8_loneBackslash_witness :
    (lex_tokens ['a', '\\']).1 = ['\\'] ∧ (['\\'] : List Char) ≠ [] :=
  c8_loneBackslash ['a', '\\'] []
    (@Reaches.step ['a', '\\'] ['\\'] ['\\'] (Token.Text ['a']) (by decide)
      (Reaches.refl ['\\']))
    True.intro

/-- Claim C9: every successful `lex_token` strictly shrinks the input, so the driver
advances at every step, terminates (it is a total Lean function), and produces
at most as many tokens as the input has characters. -/
theorem c9_progress (s r : List Char) (t : Token) (h : lex_token s = some (r, t)) :
    r.length < s.length ∧ ∀ u : List Char, (lex_tokens u).2.length ≤ u.length :=
  ⟨lex_token_length h, fun u => fuelCount (u.length + 1) u (by omega)⟩

/-- Claim C9 witness: progress at the concrete input `a`. -/
theorem c9_progress_witness :
    ([] : List Char).length < (['a'] : List Char).length ∧
    ∀ u : List Char, (lex_tokens u).2.length ≤ u.length :=
  c9_progress ['a'] [] (Token.Text ['a']) (by decide)

/-- Claim C10: a `\r` not followed by `\n` is ordinary text: `Whitespace` and
`Newline` both reject it, `lex_token` consumes it into a `Text` payload, and
`lex_tokens "\r"` yields `[Text "\r"]` with empty remainder. -/
theorem c10_carriageReturn (r : List Char) (h : r.head? ≠ some '\n') :
    lex_whitespace ('\r' :: r) = none ∧ lex_newline ('\r' :: r) = none ∧
    (∃ p rest, lex_token ('\r' :: r) = some (rest, Token.Text ('\r' :: p))) ∧
    lex_tokens ['\r'] = ([], [Token.Text ['\r']]) := by
  have hw : lex_whitespace ('\r' :: r) = none := by
    simp [lex_whitespace, isSpaceTab]
  have hn : lex_newline ('\r' :: r) = none := by
    cases r with
    | nil => rfl
    | cons d r2 =>
      have hd : ¬ d = '\n' := by simpa using h
      simp [lex_newline, hd]
  have htr : textRun ('\r' :: r) = ((textRun r).1, '\r' :: (textRun r).2) := by
    rw [textRun.eq_def]
    simp [isTextChar]
  refine ⟨hw, hn, ⟨(textRun r).2, (textRun r).1, ?_⟩, by decide⟩
  simp [lex_token, orElseO, lex_command, lex_comment, lex_endline, lex_math,
    lex_delimiter, hw, hn, lex_text, htr]

/-- Claim C10 witness: the carriage-return behaviour at the one-character input. -/
theorem c10_carriageReturn_witness :
    lex_whitespace ['\r'] = none ∧ lex_newline ['\r'] = none ∧
    (∃ p rest, lex_token ['\r'] = some (rest, Token.Text ('\r' :: p))) ∧
    lex_tokens ['\r'] = ([], [Token.Text ['\r']]) :=
  c10_carriageReturn [] (by decide)

end Texfmt
